import Mathlib

/-!
Verification of the profile state builder and critical-path analyzer
(`legion_prof_rs/src/state.rs`) against its natural-language specification.

Shallow embedding conventions:
* `Timestamp` is embedded as `Nat` (nanoseconds; the Rust type is a non-max
  u64, so `Timestamp::MAX = 2^64 - 2`).  Subtraction in the Rust code only
  occurs where the subtrahend is known not to exceed the minuend, so `Nat`
  subtraction is faithful.
* Fallible Rust code (`unwrap`, `assert!`, `panic!`, `unimplemented!`,
  `unreachable!`) is embedded with `Option`: `none` models a panic.
* `ProfUID`, `EventID`, vertex indices and memory ids are embedded as `Nat`.
-/

namespace Legion

/-- The source's `Timestamp::MAX`: the largest value of a non-max u64. -/
def timestampMAX : Nat := 2 ^ 64 - 2

/-! ## TimeRange and trimming (`TimeRange`, `TimeRange::trim_time_range`) -/

/-- The ordered 5-tuple of optional timestamps carried by every entry
(`struct TimeRange` in the source). -/
structure TimeRange where
  spawn : Option Nat
  create : Option Nat
  ready : Option Nat
  start : Option Nat
  stop : Option Nat
deriving DecidableEq, Repr

namespace TimeRange

/-- The `clip` closure of `TimeRange::trim_time_range`: subtract `start` and
clamp into `[0, stop - start]`. -/
def clip (start stop value : Nat) : Nat :=
  if value ≤ start then 0
  else if value - start > stop - start then stop - start
  else value - start

/-- The method `TimeRange::trim_time_range(start, stop)`.  Returns the "drop me" flag
together with the (possibly clipped) range.  Note the source clips `create`,
`ready`, `start` and `stop` but leaves `spawn` untouched. -/
def trim_time_range (tr : TimeRange) (start stop : Nat) : Bool × TimeRange :=
  if (tr.stop.any fun x => x < start) || (tr.start.any fun x => x > stop) then
    (true, tr)
  else
    (false,
      { tr with
        create := tr.create.map (clip start stop)
        ready := tr.ready.map (clip start stop)
        start := tr.start.map (clip start stop)
        stop := tr.stop.map (clip start stop) })

end TimeRange

/-- The container-level `trim_time_range` idiom
(`self.entries.retain(|_, t| !t.trim_time_range(start, stop))` on `Proc`,
`Mem` and `Chan`): trim every entry's range, keep only the non-dropped ones. -/
def trimEntries (l : List TimeRange) (start stop : Nat) : List TimeRange :=
  (l.map fun tr => tr.trim_time_range start stop).filterMap fun r =>
    if r.1 then none else some r.2

/-! ## WaitInterval (`struct WaitInterval` and its two constructors) -/

/-- A wait interval of a task or call (`struct WaitInterval`). -/
structure WaitInterval where
  start : Nat
  ready : Nat
  «end» : Nat
  callee : Option Nat
  event : Option Nat
  backtrace : Option Nat
deriving DecidableEq, Repr

namespace WaitInterval

/-- Constructor `WaitInterval::from_event`; the `assert!`s become the `Option` guard. -/
def from_event (start ready «end» : Nat) (event : Nat)
    (backtrace : Option Nat) : Option WaitInterval :=
  if start ≤ ready ∧ ready ≤ «end» then
    some { start, ready, «end», callee := none, event := some event, backtrace }
  else
    none

/-- Constructor `WaitInterval::from_caller`; calls are "ready" as soon as they are done,
so `ready` is set to `end`. -/
def from_caller (start «end» : Nat) (callee : Nat) : Option WaitInterval :=
  if start ≤ «end» then
    some { start, ready := «end», «end», callee := some callee, event := none,
           backtrace := none }
  else
    none

end WaitInterval

/-! ## Time points, level assignment and stacking
(`TimePoint`, `Proc::sort_time_range`'s `sort_and_stack` closure,
`Mem::sort_time_range`, `Chan::sort_time_range`, `Container::stack`) -/

/-- A `TimePoint` with `Entry = ProfUID` and `Secondary = Timestamp`. -/
structure TimePoint where
  time : Nat
  secondary_sort_key : Nat
  entry : Nat
  first : Bool
deriving DecidableEq, Repr

namespace TimePoint

/-- The key `TimePoint::time_key`: `(time, 0-before-1 for first, secondary)`. -/
def time_key (p : TimePoint) : Nat × Nat × Nat :=
  (p.time, if p.first then 0 else 1, p.secondary_sort_key)

end TimePoint

/-- Strict lexicographic comparison of time keys. -/
def keyLt (a b : Nat × Nat × Nat) : Bool :=
  Nat.blt a.1 b.1 ||
    (a.1 == b.1 && (Nat.blt a.2.1 b.2.1 ||
      (a.2.1 == b.2.1 && Nat.blt a.2.2 b.2.2)))

/-- Stable insertion: `p` goes in front of the first element whose key is
strictly greater, hence after all earlier elements with an equal key. -/
def insertPoint (p : TimePoint) : List TimePoint → List TimePoint
  | [] => [p]
  | q :: qs =>
    if keyLt q.time_key p.time_key then q :: insertPoint p qs
    else p :: q :: qs

/-- The sort `points.sort_by_key(|a| a.time_key())` (Rust's sort is stable; so is this
insertion sort). -/
def sortPoints (ps : List TimePoint) : List TimePoint :=
  ps.foldr insertPoint []

/-- The heap pop `BinaryHeap::<Reverse<u32>>::pop`: remove one minimal element of the
multiset of free levels. -/
def popMin : List Nat → Option (Nat × List Nat)
  | [] => none
  | x :: xs =>
    match popMin xs with
    | none => some (x, [])
    | some (m, rest) => if x ≤ m then some (x, xs) else some (m, x :: rest)

/-- The mutable state of a level-assignment sweep: per-entry levels (`None`
until `set_level`), the free-level heap, and the level counter. -/
structure SweepState where
  levels : Nat → Option Nat
  free : List Nat
  maxLevels : Nat

/-- Point-wise update of the level map; `Base::set_level` asserts the level
was not assigned before, which the sweep steps check. -/
def setLevel (levels : Nat → Option Nat) (e lvl : Nat) : Nat → Option Nat :=
  fun x => if x = e then some lvl else levels x

/-- One iteration of the sweep loop in `Proc::sort_time_range`'s
`sort_and_stack` closure and in `Chan::sort_time_range`: on a start point pop
a free level or post-increment `max_levels`; on a stop point push the entry's
level back.  `none` models the `set_level` / `unwrap` panics. -/
def sweepStepPostinc (s : SweepState) (p : TimePoint) : Option SweepState :=
  if p.first then
    match s.levels p.entry with
    | some _ => none
    | none =>
      match popMin s.free with
      | some (lvl, rest) =>
        some { s with levels := setLevel s.levels p.entry lvl, free := rest }
      | none =>
        some { levels := setLevel s.levels p.entry s.maxLevels,
               free := s.free, maxLevels := s.maxLevels + 1 }
  else
    match s.levels p.entry with
    | none => none
    | some lvl => some { s with free := lvl :: s.free }

/-- One iteration of the sweep loop in `Mem::sort_time_range`.  Identical to
the processor/channel sweep except that on heap exhaustion the counter is
pre-incremented (`self.max_live_insts += 1; self.max_live_insts`), so memory
levels start at 1. -/
def sweepStepPreinc (s : SweepState) (p : TimePoint) : Option SweepState :=
  if p.first then
    match s.levels p.entry with
    | some _ => none
    | none =>
      match popMin s.free with
      | some (lvl, rest) =>
        some { s with levels := setLevel s.levels p.entry lvl, free := rest }
      | none =>
        some { levels := setLevel s.levels p.entry (s.maxLevels + 1),
               free := s.free, maxLevels := s.maxLevels + 1 }
  else
    match s.levels p.entry with
    | none => none
    | some lvl => some { s with free := lvl :: s.free }

/-- The initial sweep state (`max_levels = 0`, no free levels, no entry has a
level yet). -/
def initSweep : SweepState := ⟨fun _ => none, [], 0⟩

/-- The `add` helper of `Proc::sort_time_range`: two points per entry, the
start point carrying secondary key `Timestamp::MAX - stop`. -/
def Proc.addPoints (uid : Nat) (tr : TimeRange) : Option (List TimePoint) := do
  let start ← tr.start
  let stop ← tr.stop
  pure [⟨start, timestampMAX - stop, uid, true⟩, ⟨stop, 0, uid, false⟩]

/-- Point generation of `Mem::sort_time_range`: memories use `ready` and
`stop`. -/
def Mem.addPoints (uid : Nat) (tr : TimeRange) : Option (List TimePoint) := do
  let ready ← tr.ready
  let stop ← tr.stop
  pure [⟨ready, timestampMAX - stop, uid, true⟩, ⟨stop, 0, uid, false⟩]

/-- The `sort_and_stack` closure of `Proc::sort_time_range` (also the body of
`Chan::sort_time_range`): sort the points by time key, sweep assigning
levels, then retain only the `first` points. -/
def sort_and_stack (points : List TimePoint) :
    Option (SweepState × List TimePoint) :=
  ((sortPoints points).foldlM sweepStepPostinc initSweep).map fun st =>
    (st, (sortPoints points).filter (·.first))

/-- The method `Proc::sort_time_range` restricted to one (host or device) partition of a
processor: generate both points of every entry, then `sort_and_stack`. -/
def Proc.sort_time_range (entries : List (Nat × TimeRange)) :
    Option (SweepState × List TimePoint) := do
  let pts ← entries.mapM fun e => Proc.addPoints e.1 e.2
  sort_and_stack pts.flatten

/-- The method `Mem::sort_time_range`: like the processor sweep but on `(ready, stop)`
points and with the pre-incrementing level allocation. -/
def Mem.sort_time_range (insts : List (Nat × TimeRange)) :
    Option (SweepState × List TimePoint) := do
  let pts ← insts.mapM fun e => Mem.addPoints e.1 e.2
  ((sortPoints pts.flatten).foldlM sweepStepPreinc initSweep).map fun st =>
    (st, (sortPoints pts.flatten).filter (·.first))

/-- Loop body of `Container::stack`: append each point to the bucket indexed
by its entry's level (`none` models the `unwrap`/out-of-bounds panics). -/
def stackGo (levels : Nat → Option Nat) :
    List TimePoint → List (List TimePoint) → Option (List (List TimePoint))
  | [], acc => some acc
  | p :: ps, acc => do
    let lvl ← levels p.entry
    if lvl < acc.length then
      stackGo levels ps (acc.set lvl (acc.getD lvl [] ++ [p]))
    else
      none

/-- The method `Container::stack`: `max_levels + 1` buckets, each point pushed onto the
bucket of its entry's assigned level. -/
def Container.stack (time_points : List TimePoint) (max_levels : Nat)
    (levels : Nat → Option Nat) : Option (List (List TimePoint)) :=
  stackGo levels time_points (List.replicate (max_levels + 1) [])

/-! ## Copy splitting (`CopyInstInfo`, `ChanID`, `Copy::split_by_channel`) -/

/-- One row of a raw copy record (`struct CopyInstInfo`). -/
structure CopyInstInfo where
  src : Option Nat
  dst : Option Nat
  src_fid : Nat
  dst_fid : Nat
  src_inst_uid : Option Nat
  dst_inst_uid : Option Nat
  num_hops : Nat
  indirect : Bool
deriving DecidableEq, Repr

/-- The channel identifiers produced by copy splitting (`enum ChanID`,
restricted to the variants `split_by_channel` constructs). -/
inductive ChanID where
  | Copy (src dst : Nat)
  | Gather (dst : Nat)
  | Scatter (src : Nat)
deriving DecidableEq, Repr

/-- The copy kinds (`enum CopyKind`). -/
inductive CopyKind where
  | Copy
  | Gather
  | Scatter
  | GatherScatter
deriving DecidableEq, Repr

/-- Helper of `linearGroupBy`: extend the current group (held in reverse)
while the predicate accepts each adjacent pair. -/
def linearGroupByGo (pred : α → α → Bool) :
    α → List α → List α → List (List α)
  | _, acc, [] => [acc.reverse]
  | prev, acc, y :: ys =>
    if pred prev y then linearGroupByGo pred y (y :: acc) ys
    else acc.reverse :: linearGroupByGo pred y [y] ys

/-- The method `linear_group_by(pred)` of the `slice-group-by` crate: adjacent
elements `a, b` (in slice order) stay in one group iff `pred a b`. -/
def linearGroupBy (pred : α → α → Bool) : List α → List (List α)
  | [] => []
  | x :: xs => linearGroupByGo pred x [x] xs

/-- A sub-copy emitted by `Copy::split_by_channel`: the fresh `ProfUID` of
its `Base`, its kind, channel, and its `CopyInstInfo` rows. -/
structure SubCopy where
  uid : Nat
  copy_kind : CopyKind
  chan_id : ChanID
  copy_inst_infos : List CopyInstInfo
deriving DecidableEq, Repr

/-- The mutable context threaded through `Copy::split_by_channel`: the
`ProfUID` allocator counter (`next_prof_uid`; `create_fresh` pre-increments),
the `creator` field of the copy's event-graph node, and the emitted
sub-copies in order. -/
structure SplitState where
  nextProfUid : Nat
  creator : Option Nat
  result : List SubCopy
deriving DecidableEq, Repr

/-- The `chan_id` match of `Copy::split_by_channel`.  The `(true, true)` arm
(`unimplemented!("can't assign GatherScatter channel")`) and the final
`unreachable!("invalid copy kind")` arm both panic, hence both are `none`
here. -/
def chanFor : Bool → Bool → Option Nat → Option Nat → Option ChanID
  | false, false, some src, some dst => some (ChanID.Copy src dst)
  | true, false, _, some dst => some (ChanID.Gather dst)
  | false, true, some src, _ => some (ChanID.Scatter src)
  | _, _, _, _ => none

/-- Body of the inner `for mem_group in mem_groups` loop of
`Copy::split_by_channel`.  Each emission allocates a fresh uid
(`Base::new` pre-increments the allocator) and redirects the event node's
`creator` to it. -/
def emitMemGroup (indirect : Option CopyInstInfo) (indirect_src indirect_dst : Bool)
    (copy_kind : CopyKind) (st : SplitState) (mem_group : List CopyInstInfo) :
    Option SplitState := do
  let info ← mem_group.head?
  let chan_id ← chanFor indirect_src indirect_dst info.src info.dst
  let mem_group :=
    match indirect with
    | some i => i :: mem_group
    | none => mem_group
  let uid := st.nextProfUid + 1
  pure { nextProfUid := uid, creator := some uid,
         result := st.result ++ [⟨uid, copy_kind, chan_id, mem_group⟩] }

/-- Body of the outer `for indirect_group in indirect_groups` loop of
`Copy::split_by_channel`. -/
def splitIndirectGroup (st : SplitState) (indirect_group : List CopyInstInfo) :
    Option SplitState := do
  let indirect := indirect_group.head?.filter (·.indirect)
  let rest := if indirect.isSome then indirect_group.tail else indirect_group
  let indirect_src := indirect.any fun i => i.src.isSome
  let indirect_dst := indirect.any fun i => i.dst.isSome
  let copy_kind :=
    match indirect_src, indirect_dst with
    | false, false => CopyKind.Copy
    | true, false => CopyKind.Gather
    | false, true => CopyKind.Scatter
    | true, true => CopyKind.GatherScatter
  let mem_groups := linearGroupBy (fun a b => a.src == b.src && a.dst == b.dst) rest
  mem_groups.foldlM (emitMemGroup indirect indirect_src indirect_dst copy_kind) st

/-- The method `Copy::split_by_channel` on the row list of one composite copy, starting
from allocator counter `u0` and the event node's current `creator` field.
The first grouping level is the source's
`copy_inst_infos.linear_group_by(|i, _| i.indirect)`. -/
def split_by_channel (infos : List CopyInstInfo) (u0 : Nat)
    (creator0 : Option Nat) : Option SplitState :=
  (linearGroupBy (fun i _ => i.indirect) infos).foldlM splitIndirectGroup
    ⟨u0, creator0, []⟩

/-- Modelled from the spec (section 4.3, steps 1-2), for comparison with
`split_by_channel`: group rows into runs *delimited by indirection markers*,
i.e. a marker starts a new run and every following non-marker row belongs to
that run.  Only the grouping predicate differs from the code. -/
def split_by_channel_specGrouping (infos : List CopyInstInfo) (u0 : Nat)
    (creator0 : Option Nat) : Option SplitState :=
  (linearGroupBy (fun _ i => !i.indirect) infos).foldlM splitIndirectGroup
    ⟨u0, creator0, []⟩

/-! ## Event DAG (`EventEntryKind`, `EventEntry`, `record_event_node`,
`find_event_node`) and critical paths (`State::compute_critical_paths`) -/

/-- The source's `enum EventEntryKind`. -/
inductive EventEntryKind where
  | UnknownEvent
  | TaskEvent
  | FillEvent
  | CopyEvent
  | DepPartEvent
  | MergeEvent
  | TriggerEvent
  | PoisonEvent
  | ArriveBarrier
  | ExternalHandshake
  | ReservationAcquire
  | InstanceReady
  | InstanceRedistrict
  | InstanceDeletion
  | CompletionQueueEvent
  | ExternalEvent (provenance : Nat)
deriving DecidableEq, Repr

/-- A node of the critical-path graph (`struct EventEntry`); `critical`
holds a vertex index. -/
structure EventEntry where
  kind : EventEntryKind
  creator : Option Nat
  creationTime : Option Nat
  triggerTime : Option Nat
  critical : Option Nat
deriving DecidableEq, Repr

/-- Constructor `EventEntry::new`: `critical` starts out unset. -/
def EventEntry.new (kind : EventEntryKind) (creator : Option Nat)
    (creationTime triggerTime : Option Nat) : EventEntry :=
  ⟨kind, creator, creationTime, triggerTime, none⟩

/-- Accumulator of the incoming-edge scan in `compute_critical_paths`:
`latest`/`earliest` hold `(critical vertex of the source, trigger time)`. -/
structure ScanAcc where
  latest : Option (Nat × Nat)
  earliest : Option (Nat × Nat)
  unknown : Option Nat
deriving DecidableEq, Repr

/-- The `for edge in ... edges_directed(vertex, Incoming)` loop of
`compute_critical_paths`, over the list of source node weights.  A source
without a trigger time taints the node and breaks out of the loop.  `none`
models the `unwrap` panics on an unset `critical` of a source. -/
def scanSources : List EventEntry → ScanAcc → Option ScanAcc
  | [], acc => some acc
  | src :: rest, acc =>
    match src.triggerTime with
    | some trigger_time =>
      match acc.latest with
      | some (lv, latest_time) => do
        let latest ←
          if latest_time < trigger_time then do
            let c ← src.critical
            pure (c, trigger_time)
          else
            pure (lv, latest_time)
        let e ← acc.earliest
        let earliest ←
          if trigger_time < e.2 then do
            let c ← src.critical
            pure (c, trigger_time)
          else
            pure e
        scanSources rest ⟨some latest, some earliest, acc.unknown⟩
      | none => do
        let c ← src.critical
        scanSources rest ⟨some (c, trigger_time), some (c, trigger_time), acc.unknown⟩
    | none => do
      let u ← src.critical
      some { acc with unknown := some u }

/-- Event kinds that do not record their own trigger time and therefore get
`trigger_time ← max(creation_time, sel.time)` assigned during the
critical-path pass (the first `match` arm at the end of the relaxation
loop). -/
def assignsTriggerTime : EventEntryKind → Bool
  | .MergeEvent | .TriggerEvent | .PoisonEvent | .ArriveBarrier
  | .InstanceReady | .InstanceRedistrict | .ExternalHandshake
  | .ReservationAcquire | .CompletionQueueEvent => true
  | _ => false

/-- The per-vertex body of `compute_critical_paths` after the incoming-edge
scan: unknown nodes are their own critical entry; tainted nodes take the
taint; otherwise select `latest` (or `earliest` for a completion queue
event), compare against the creation time, and propagate the trigger time
for the kinds that need one. -/
def processVertex (vertex : Nat) (entry : EventEntry) (acc : ScanAcc) :
    Option EventEntry :=
  if entry.kind = .UnknownEvent then
    if acc.latest.isSome then none
    else some { entry with critical := some vertex }
  else
    match acc.unknown with
    | some u => some { entry with critical := some u }
    | none => do
      let latest := if entry.kind = .CompletionQueueEvent then acc.earliest else acc.latest
      let (entry', trigger_time) ←
        match latest with
        | some (latest_vertex, latest_time) => do
          let creation_time ← entry.creationTime
          if creation_time < latest_time then
            pure ({ entry with critical := some latest_vertex },
                  some latest_time)
          else
            pure ({ entry with critical := some vertex }, entry.creationTime)
        | none => pure ({ entry with critical := some vertex }, entry.creationTime)
      if assignsTriggerTime entry'.kind then
        if entry'.triggerTime.isSome then none
        else some { entry' with triggerTime := trigger_time }
      else
        if entry'.triggerTime.isSome then some entry' else none

/-- One iteration of the topological-order loop of
`compute_critical_paths` on a graph given as a node list (vertex = index)
and a directed edge list. -/
def computeStep (edges : List (Nat × Nat)) (nodes : List EventEntry)
    (vertex : Nat) : Option (List EventEntry) := do
  let entry ← nodes[vertex]?
  let srcs ← (edges.filter fun e => e.2 == vertex).mapM fun e => nodes[e.1]?
  let acc ← scanSources srcs ⟨none, none, none⟩
  let entry' ← processVertex vertex entry acc
  pure (nodes.set vertex entry')

/-- The relaxation phase of `State::compute_critical_paths`, processing the
vertices in the given topological order. -/
def compute_critical_paths (nodes : List EventEntry)
    (edges : List (Nat × Nat)) (topological_order : List Nat) :
    Option (List EventEntry) :=
  topological_order.foldlM (computeStep edges) nodes

/-! ## Event-record processing (`ProfUIDAllocator::create_reference`,
`State::record_event_node`, `State::find_event_node`, and the
`Record::EventMergerInfo` arm of `process_record`) -/

/-- The predicate `EventID::is_barrier`: tag `0x2` in the top four bits. -/
def EventID.is_barrier (id : Nat) : Bool := id >>> 60 == 2

/-- The field `EventID::generation`: the low 20 bits. -/
def EventID.generation (id : Nat) : Nat := id &&& (2 ^ 20 - 1)

/-- The `ProfUIDAllocator`, reduced to the fields `create_reference` touches
(`next_prof_uid` and the fevent intern map). -/
structure ProfUIDAllocator where
  next_prof_uid : Nat
  fevents : List (Nat × Nat)
deriving Repr

/-- Association-list lookup standing in for the `BTreeMap` lookups. -/
def assocFind (l : List (Nat × Nat)) (k : Nat) : Option Nat :=
  (l.find? fun kv => kv.1 == k).map (·.2)

/-- The method `ProfUIDAllocator::create_reference`: intern by fevent, allocating
`next_prof_uid + 1` on first mention. -/
def ProfUIDAllocator.create_reference (a : ProfUIDAllocator) (fevent : Nat) :
    ProfUIDAllocator × Nat :=
  match assocFind a.fevents fevent with
  | some uid => (a, uid)
  | none =>
    (⟨a.next_prof_uid + 1, a.fevents ++ [(fevent, a.next_prof_uid + 1)]⟩,
     a.next_prof_uid + 1)

/-- The event graph with its `EventID → vertex` lookup
(`State::event_graph` and `State::event_lookup`). -/
structure EventGraphState where
  nodes : List EventEntry
  edges : List (Nat × Nat)
  lookup : List (Nat × Nat)
deriving Repr

/-- The method `State::find_event_node`: return the vertex for an event, creating an
`UnknownEvent` placeholder on first sight; a barrier with generation above
one also gets a mandatory edge from its previous phase (`id - 1`). -/
def find_event_node (st : EventGraphState) (event : Nat) :
    EventGraphState × Nat :=
  match assocFind st.lookup event with
  | some index => (st, index)
  | none =>
    let index := st.nodes.length
    let st1 : EventGraphState :=
      ⟨st.nodes ++ [EventEntry.new .UnknownEvent none none none],
       st.edges, st.lookup ++ [(event, index)]⟩
    if _h : EventID.is_barrier event ∧ 1 < EventID.generation event then
      let p := find_event_node st1 (event - 1)
      (⟨p.1.nodes, p.1.edges ++ [(p.2, index)], p.1.lookup⟩, index)
    else
      (st1, index)
termination_by event
decreasing_by
  have hle : EventID.generation event ≤ event := Nat.and_le_left
  omega

/-- The method `State::record_event_node`; `none` models the failed `assert!`s and the
duplicate-recording `panic!`. -/
def record_event_node (st : EventGraphState) (fevent : Nat)
    (kind : EventEntryKind) (creator : Nat) (creation_time : Nat)
    (trigger_time : Option Nat) (deduplicate : Bool) :
    Option (EventGraphState × Nat) :=
  match assocFind st.lookup fevent with
  | some index => do
    let node_weight ← st.nodes[index]?
    if node_weight.kind = .UnknownEvent then
      let entry := EventEntry.new kind (some creator) (some creation_time) trigger_time
      some ({ st with nodes := st.nodes.set index entry }, index)
    else if deduplicate then
      if node_weight.kind = kind ∧ node_weight.creator = some creator then
        some (st, index)
      else
        none
    else
      none
  | none =>
    let index := st.nodes.length
    some ({ st with
            nodes := st.nodes ++
              [EventEntry.new kind (some creator) (some creation_time) trigger_time],
            lookup := st.lookup ++ [(fevent, index)] },
          index)

/-- The `Record::EventMergerInfo` payload. -/
structure EventMergerInfo where
  result : Nat
  fevent : Nat
  performed : Nat
  pre0 : Option Nat
  pre1 : Option Nat
  pre2 : Option Nat
  pre3 : Option Nat
deriving Repr

/-- One `if let Some(pre) = *pre { ... add_edge(src, dst, ()) }` block of the
merger arm.  petgraph's `add_edge` always appends a fresh edge, so repeated
declarations duplicate edges. -/
def addMergerPre (g : EventGraphState) (dst : Nat) (pre : Option Nat) :
    EventGraphState :=
  match pre with
  | none => g
  | some p =>
    let (g', src) := find_event_node g p
    { g' with edges := g'.edges ++ [(src, dst)] }

/-- The full state touched by the merger arm of `process_record`. -/
structure DagState where
  alloc : ProfUIDAllocator
  graph : EventGraphState
deriving Repr

/-- The `Record::EventMergerInfo` arm of `process_record`
(the `Record::CompletionQueueInfo` and `Record::InstanceRedistrictInfo` arms
insert their precondition edges with the same plain `add_edge` calls). -/
def processEventMergerInfo (st : DagState) (r : EventMergerInfo) :
    Option DagState := do
  let (alloc, creator_uid) := st.alloc.create_reference r.fevent
  let (g, dst) ← record_event_node st.graph r.result .MergeEvent creator_uid
    r.performed none true
  let g := addMergerPre g dst r.pre0
  let g := addMergerPre g dst r.pre1
  let g := addMergerPre g dst r.pre2
  let g := addMergerPre g dst r.pre3
  pure ⟨alloc, g⟩

/-- petgraph's `Graph::update_edge`: add the edge only if it is not already
present — the idempotent insertion the spec prescribes for deduplicated
event kinds (used by the source for barrier arrivals and remote triggers). -/
def update_edge (edges : List (Nat × Nat)) (src dst : Nat) :
    List (Nat × Nat) :=
  if (src, dst) ∈ edges then edges else edges ++ [(src, dst)]

/-! ## Supporting lemmas -/

/-- The closure `clip` lands in `[0, stop - start]`. -/
theorem TimeRange.clip_le (s t v : Nat) : TimeRange.clip s t v ≤ t - s := by
  unfold TimeRange.clip
  split
  · omega
  · split <;> omega

/-- A range kept by `trim_time_range` has its four clock-consistent fields
mapped through `clip` and its `spawn` untouched. -/
theorem TimeRange.trim_eq_of_kept (tr tr' : TimeRange) (lo hi : Nat)
    (h : tr.trim_time_range lo hi = (false, tr')) :
    tr'.spawn = tr.spawn ∧
    tr'.create = tr.create.map (TimeRange.clip lo hi) ∧
    tr'.ready = tr.ready.map (TimeRange.clip lo hi) ∧
    tr'.start = tr.start.map (TimeRange.clip lo hi) ∧
    tr'.stop = tr.stop.map (TimeRange.clip lo hi) := by
  unfold TimeRange.trim_time_range at h
  split at h
  · exact absurd (congrArg Prod.fst h) (by simp)
  · have := congrArg Prod.snd h
    simp only at this
    subst this
    exact ⟨rfl, rfl, rfl, rfl, rfl⟩

/-- A nonempty heap always pops. -/
theorem popMin_eq_none_iff (l : List Nat) : popMin l = none ↔ l = [] := by
  cases l with
  | nil => simp [popMin]
  | cons x xs =>
    simp only [popMin, List.cons_ne_nil, iff_false]
    intro h
    cases hxs : popMin xs with
    | none => simp [hxs] at h
    | some p =>
      obtain ⟨m, rest⟩ := p
      simp only [hxs] at h
      by_cases hle : x ≤ m
      · rw [if_pos hle] at h; cases h
      · rw [if_neg hle] at h; cases h

/-- Popping via `popMin` returns a minimum of the heap, and the remainder is drawn from
the heap. -/
theorem popMin_spec (l : List Nat) (m : Nat) (rest : List Nat)
    (h : popMin l = some (m, rest)) :
    m ∈ l ∧ (∀ x ∈ rest, x ∈ l) ∧ (∀ x ∈ l, m ≤ x) := by
  induction l generalizing m rest with
  | nil => simp [popMin] at h
  | cons x xs ih =>
    cases hxs : popMin xs with
    | none =>
      have hnil : xs = [] := (popMin_eq_none_iff xs).mp hxs
      subst hnil
      simp only [popMin, Option.some.injEq, Prod.mk.injEq] at h
      obtain ⟨hm, hrest⟩ := h
      subst hm; subst hrest
      refine ⟨List.mem_singleton_self x, by simp, ?_⟩
      intro y hy
      simp only [List.mem_singleton] at hy
      omega
    | some p =>
      obtain ⟨m', rest'⟩ := p
      simp only [popMin, hxs] at h
      obtain ⟨hm', hrest', hmin'⟩ := ih m' rest' hxs
      by_cases hle : x ≤ m'
      · rw [if_pos hle] at h
        simp only [Option.some.injEq, Prod.mk.injEq] at h
        obtain ⟨hm, hrest⟩ := h
        subst hm; subst hrest
        refine ⟨List.mem_cons_self x xs, fun y hy => List.mem_cons_of_mem x hy, ?_⟩
        intro y hy
        rcases List.mem_cons.mp hy with h | h
        · omega
        · exact le_trans hle (hmin' y h)
      · rw [if_neg hle] at h
        simp only [Option.some.injEq, Prod.mk.injEq] at h
        obtain ⟨hm, hrest⟩ := h
        subst hm; subst hrest
        refine ⟨List.mem_cons_of_mem x hm', ?_, ?_⟩
        · intro y hy
          rcases List.mem_cons.mp hy with h | h
          · exact List.mem_cons.mpr (Or.inl h)
          · exact List.mem_cons_of_mem x (hrest' y h)
        · intro y hy
          rcases List.mem_cons.mp hy with h | h
          · omega
          · exact hmin' y h

/-- Invariant of the post-incrementing (processor/channel) sweep: all levels
assigned so far and all free levels lie below `max_levels`, and when any
level has been allocated, level `max_levels - 1` is assigned to some entry. -/
def SweepInvPostinc (s : SweepState) : Prop :=
  (∀ e lvl, s.levels e = some lvl → lvl < s.maxLevels) ∧
  (∀ lvl ∈ s.free, lvl < s.maxLevels) ∧
  (0 < s.maxLevels → ∃ e, s.levels e = some (s.maxLevels - 1))

/-- Invariant of the pre-incrementing (memory) sweep: all assigned and free
levels lie in `[1, max_live_insts]`, and when any level has been allocated,
level `max_live_insts` itself is assigned to some entry. -/
def SweepInvPreinc (s : SweepState) : Prop :=
  (∀ e lvl, s.levels e = some lvl → 1 ≤ lvl ∧ lvl ≤ s.maxLevels) ∧
  (∀ lvl ∈ s.free, 1 ≤ lvl ∧ lvl ≤ s.maxLevels) ∧
  (0 < s.maxLevels → ∃ e, s.levels e = some s.maxLevels)

/-- One processor/channel sweep step preserves the level-range invariant. -/
theorem sweepStepPostinc_inv (s s' : SweepState) (p : TimePoint)
    (h : sweepStepPostinc s p = some s') (hinv : SweepInvPostinc s) :
    SweepInvPostinc s' := by
  obtain ⟨hassigned, hfree, hhigh⟩ := hinv
  unfold sweepStepPostinc at h
  split at h
  · split at h
    · exact absurd h (by simp)
    · rename_i hnone
      split at h
      · rename_i lvl rest hpop
        simp only [Option.some.injEq] at h
        subst h
        obtain ⟨hmem, hsub, _⟩ := popMin_spec _ _ _ hpop
        refine ⟨?_, ?_, ?_⟩
        · intro e l hl
          simp only [setLevel] at hl
          split at hl
          · simp only [Option.some.injEq] at hl; subst hl; exact hfree _ hmem
          · exact hassigned e l hl
        · intro l hl
          exact hfree l (hsub l hl)
        · intro hpos
          obtain ⟨e, he⟩ := hhigh hpos
          refine ⟨e, ?_⟩
          simp only [setLevel]
          split
          · rename_i heq; rw [heq] at he; rw [he] at hnone; cases hnone
          · exact he
      · rename_i hpop
        simp only [Option.some.injEq] at h
        subst h
        refine ⟨?_, ?_, ?_⟩
        · intro e l hl
          dsimp only at hl ⊢
          simp only [setLevel] at hl
          split at hl
          · simp only [Option.some.injEq] at hl; omega
          · have := hassigned e l hl; omega
        · intro l hl
          dsimp only at hl ⊢
          have := hfree l hl; omega
        · intro _
          refine ⟨p.entry, ?_⟩
          dsimp only
          simp [setLevel]
  · split at h
    · exact absurd h (by simp)
    · rename_i lvl hl
      simp only [Option.some.injEq] at h
      subst h
      refine ⟨hassigned, ?_, hhigh⟩
      intro l hmem
      rcases List.mem_cons.mp hmem with heq | hmem'
      · subst heq; exact hassigned _ _ hl
      · exact hfree _ hmem'

/-- One memory sweep step preserves its level-range invariant. -/
theorem sweepStepPreinc_inv (s s' : SweepState) (p : TimePoint)
    (h : sweepStepPreinc s p = some s') (hinv : SweepInvPreinc s) :
    SweepInvPreinc s' := by
  obtain ⟨hassigned, hfree, hhigh⟩ := hinv
  unfold sweepStepPreinc at h
  split at h
  · split at h
    · exact absurd h (by simp)
    · rename_i hnone
      split at h
      · rename_i lvl rest hpop
        simp only [Option.some.injEq] at h
        subst h
        obtain ⟨hmem, hsub, _⟩ := popMin_spec _ _ _ hpop
        refine ⟨?_, ?_, ?_⟩
        · intro e l hl
          simp only [setLevel] at hl
          split at hl
          · simp only [Option.some.injEq] at hl; subst hl; exact hfree _ hmem
          · exact hassigned e l hl
        · intro l hl
          exact hfree l (hsub l hl)
        · intro hpos
          obtain ⟨e, he⟩ := hhigh hpos
          refine ⟨e, ?_⟩
          simp only [setLevel]
          split
          · rename_i heq; rw [heq] at he; rw [he] at hnone; cases hnone
          · exact he
      · rename_i hpop
        simp only [Option.some.injEq] at h
        subst h
        refine ⟨?_, ?_, ?_⟩
        · intro e l hl
          dsimp only at hl ⊢
          simp only [setLevel] at hl
          split at hl
          · simp only [Option.some.injEq] at hl; omega
          · have := hassigned e l hl; omega
        · intro l hl
          dsimp only at hl ⊢
          have := hfree l hl; omega
        · intro _
          refine ⟨p.entry, ?_⟩
          dsimp only
          simp [setLevel]
  · split at h
    · exact absurd h (by simp)
    · rename_i lvl hl
      simp only [Option.some.injEq] at h
      subst h
      refine ⟨hassigned, ?_, hhigh⟩
      intro l hmem
      rcases List.mem_cons.mp hmem with heq | hmem'
      · subst heq; exact hassigned _ _ hl
      · exact hfree _ hmem'

/-- The processor/channel sweep as a whole preserves its invariant. -/
theorem sweepPostinc_fold_inv (ps : List TimePoint) (s s' : SweepState)
    (h : ps.foldlM sweepStepPostinc s = some s') (hinv : SweepInvPostinc s) :
    SweepInvPostinc s' := by
  induction ps generalizing s with
  | nil =>
    simp only [List.foldlM_nil, Option.pure_def, Option.some.injEq] at h
    subst h; exact hinv
  | cons p ps ih =>
    rw [List.foldlM_cons] at h
    cases h1 : sweepStepPostinc s p with
    | none => rw [h1] at h; cases h
    | some s1 =>
      rw [h1] at h
      exact ih s1 h (sweepStepPostinc_inv s s1 p h1 hinv)

/-- The memory sweep as a whole preserves its invariant. -/
theorem sweepPreinc_fold_inv (ps : List TimePoint) (s s' : SweepState)
    (h : ps.foldlM sweepStepPreinc s = some s') (hinv : SweepInvPreinc s) :
    SweepInvPreinc s' := by
  induction ps generalizing s with
  | nil =>
    simp only [List.foldlM_nil, Option.pure_def, Option.some.injEq] at h
    subst h; exact hinv
  | cons p ps ih =>
    rw [List.foldlM_cons] at h
    cases h1 : sweepStepPreinc s p with
    | none => rw [h1] at h; cases h
    | some s1 =>
      rw [h1] at h
      exact ih s1 h (sweepStepPreinc_inv s s1 p h1 hinv)

/-- Characterization of the incoming-edge scan of `compute_critical_paths`
once `latest` and `earliest` hold candidates, over sources that all have
known trigger times: the scan keeps the running maximum in `latest` and the
running minimum in `earliest`, each paired with the `critical` pointer of a
source attaining it, and never taints `unknown`. -/
theorem scanSources_known_go (srcs : List EventEntry)
    (lv0 lt0 ev0 et0 : Nat) (u : Option Nat) (acc : ScanAcc)
    (hscan : scanSources srcs ⟨some (lv0, lt0), some (ev0, et0), u⟩ = some acc)
    (hall : ∀ s ∈ srcs, s.triggerTime.isSome) :
    acc.unknown = u ∧
    ∃ lv lt ev et, acc.latest = some (lv, lt) ∧ acc.earliest = some (ev, et) ∧
      lt0 ≤ lt ∧ et ≤ et0 ∧
      ((lv = lv0 ∧ lt = lt0) ∨
        ∃ s ∈ srcs, s.triggerTime = some lt ∧ s.critical = some lv) ∧
      ((ev = ev0 ∧ et = et0) ∨
        ∃ s ∈ srcs, s.triggerTime = some et ∧ s.critical = some ev) ∧
      (∀ s ∈ srcs, ∀ t, s.triggerTime = some t → t ≤ lt ∧ et ≤ t) := by
  induction srcs generalizing lv0 lt0 ev0 et0 with
  | nil =>
    simp only [scanSources, Option.some.injEq] at hscan
    subst hscan
    exact ⟨rfl, lv0, lt0, ev0, et0, rfl, rfl, le_refl _, le_refl _,
      Or.inl ⟨rfl, rfl⟩, Or.inl ⟨rfl, rfl⟩, by simp⟩
  | cons s rest ih =>
    obtain ⟨tt, htt⟩ := Option.isSome_iff_exists.mp
      (hall s (List.mem_cons_self s rest))
    simp only [scanSources, htt] at hscan
    have hrestall : ∀ q ∈ rest, q.triggerTime.isSome = true :=
      fun q hq => hall q (List.mem_cons_of_mem s hq)
    have hhead : ∀ (lv lt et : Nat), tt ≤ lt → et ≤ tt →
        ∀ q ∈ s :: rest, ∀ t, q.triggerTime = some t →
          (∀ q ∈ rest, ∀ t, q.triggerTime = some t → t ≤ lt ∧ et ≤ t) →
          t ≤ lt ∧ et ≤ t := by
      intro lv lt et hlt2 het2 q hq t hqt hbound
      rcases List.mem_cons.mp hq with heq | hmem
      · subst heq
        rw [htt] at hqt
        cases hqt
        omega
      · exact hbound q hmem t hqt
    by_cases hlt : lt0 < tt
    all_goals by_cases het : tt < et0
    · rw [if_pos hlt] at hscan
      cases hc : s.critical with
      | none =>
        rw [hc] at hscan
        simp at hscan
      | some c =>
        rw [hc] at hscan
        simp only [Option.bind_eq_bind, Option.some_bind, Option.pure_def] at hscan
        dsimp only at hscan
        rw [if_pos het] at hscan
        try simp only [Option.bind_eq_bind, Option.some_bind, Option.pure_def] at hscan
        obtain ⟨hu, lv, lt, ev, et, h1, h2, h3, h4, h5, h6, h7⟩ :=
          ih c tt c tt hscan hrestall
        refine ⟨hu, lv, lt, ev, et, h1, h2, by omega, by omega, ?_, ?_, ?_⟩
        · rcases h5 with ⟨he1, he2⟩ | ⟨q, hq, hqt, hqc⟩
          · exact Or.inr ⟨s, List.mem_cons_self s rest, by rw [htt, he2], by rw [hc, he1]⟩
          · exact Or.inr ⟨q, List.mem_cons_of_mem s hq, hqt, hqc⟩
        · rcases h6 with ⟨he1, he2⟩ | ⟨q, hq, hqt, hqc⟩
          · exact Or.inr ⟨s, List.mem_cons_self s rest, by rw [htt, he2], by rw [hc, he1]⟩
          · exact Or.inr ⟨q, List.mem_cons_of_mem s hq, hqt, hqc⟩
        · intro q hq t hqt
          exact hhead lv lt et h3 h4 q hq t hqt h7
    · rw [if_pos hlt] at hscan
      cases hc : s.critical with
      | none =>
        rw [hc] at hscan
        simp at hscan
      | some c =>
        rw [hc] at hscan
        simp only [Option.bind_eq_bind, Option.some_bind, Option.pure_def] at hscan
        dsimp only at hscan
        rw [if_neg het] at hscan
        try simp only [Option.bind_eq_bind, Option.some_bind, Option.pure_def] at hscan
        obtain ⟨hu, lv, lt, ev, et, h1, h2, h3, h4, h5, h6, h7⟩ :=
          ih c tt ev0 et0 hscan hrestall
        refine ⟨hu, lv, lt, ev, et, h1, h2, by omega, by omega, ?_, ?_, ?_⟩
        · rcases h5 with ⟨he1, he2⟩ | ⟨q, hq, hqt, hqc⟩
          · exact Or.inr ⟨s, List.mem_cons_self s rest, by rw [htt, he2], by rw [hc, he1]⟩
          · exact Or.inr ⟨q, List.mem_cons_of_mem s hq, hqt, hqc⟩
        · rcases h6 with ⟨he1, he2⟩ | ⟨q, hq, hqt, hqc⟩
          · exact Or.inl ⟨he1, he2⟩
          · exact Or.inr ⟨q, List.mem_cons_of_mem s hq, hqt, hqc⟩
        · intro q hq t hqt
          exact hhead lv lt et (by omega) (by omega) q hq t hqt h7
    · rw [if_neg hlt] at hscan
      simp only [Option.bind_eq_bind, Option.some_bind, Option.pure_def] at hscan
      dsimp only at hscan
      rw [if_pos het] at hscan
      cases hc : s.critical with
      | none =>
        rw [hc] at hscan
        simp at hscan
      | some c =>
        rw [hc] at hscan
        simp only [Option.bind_eq_bind, Option.some_bind, Option.pure_def] at hscan
        obtain ⟨hu, lv, lt, ev, et, h1, h2, h3, h4, h5, h6, h7⟩ :=
          ih lv0 lt0 c tt hscan hrestall
        refine ⟨hu, lv, lt, ev, et, h1, h2, by omega, by omega, ?_, ?_, ?_⟩
        · rcases h5 with ⟨he1, he2⟩ | ⟨q, hq, hqt, hqc⟩
          · exact Or.inl ⟨he1, he2⟩
          · exact Or.inr ⟨q, List.mem_cons_of_mem s hq, hqt, hqc⟩
        · rcases h6 with ⟨he1, he2⟩ | ⟨q, hq, hqt, hqc⟩
          · exact Or.inr ⟨s, List.mem_cons_self s rest, by rw [htt, he2], by rw [hc, he1]⟩
          · exact Or.inr ⟨q, List.mem_cons_of_mem s hq, hqt, hqc⟩
        · intro q hq t hqt
          exact hhead lv lt et (by omega) (by omega) q hq t hqt h7
    · rw [if_neg hlt] at hscan
      simp only [Option.bind_eq_bind, Option.some_bind, Option.pure_def] at hscan
      dsimp only at hscan
      rw [if_neg het] at hscan
      try simp only [Option.bind_eq_bind, Option.some_bind, Option.pure_def] at hscan
      obtain ⟨hu, lv, lt, ev, et, h1, h2, h3, h4, h5, h6, h7⟩ :=
        ih lv0 lt0 ev0 et0 hscan hrestall
      refine ⟨hu, lv, lt, ev, et, h1, h2, by omega, by omega, ?_, ?_, ?_⟩
      · rcases h5 with ⟨he1, he2⟩ | ⟨q, hq, hqt, hqc⟩
        · exact Or.inl ⟨he1, he2⟩
        · exact Or.inr ⟨q, List.mem_cons_of_mem s hq, hqt, hqc⟩
      · rcases h6 with ⟨he1, he2⟩ | ⟨q, hq, hqt, hqc⟩
        · exact Or.inl ⟨he1, he2⟩
        · exact Or.inr ⟨q, List.mem_cons_of_mem s hq, hqt, hqc⟩
      · intro q hq t hqt
        exact hhead lv lt et (by omega) (by omega) q hq t hqt h7

/-- The incoming-edge scan from the fresh accumulator, over a nonempty list
of sources that all have known trigger times: `latest` holds the maximum
trigger time and `earliest` the minimum, each with the `critical` pointer of
an attaining source; `unknown` remains unset. -/
theorem scanSources_known (srcs : List EventEntry) (acc : ScanAcc)
    (hscan : scanSources srcs ⟨none, none, none⟩ = some acc)
    (hall : ∀ s ∈ srcs, s.triggerTime.isSome) (hne : srcs ≠ []) :
    acc.unknown = none ∧
    ∃ lv lt ev et, acc.latest = some (lv, lt) ∧ acc.earliest = some (ev, et) ∧
      (∃ s ∈ srcs, s.triggerTime = some lt ∧ s.critical = some lv) ∧
      (∃ s ∈ srcs, s.triggerTime = some et ∧ s.critical = some ev) ∧
      (∀ s ∈ srcs, ∀ t, s.triggerTime = some t → t ≤ lt ∧ et ≤ t) := by
  cases srcs with
  | nil => exact absurd rfl hne
  | cons s rest =>
    obtain ⟨tt, htt⟩ := Option.isSome_iff_exists.mp
      (hall s (List.mem_cons_self s rest))
    simp only [scanSources, htt] at hscan
    cases hc : s.critical with
    | none =>
      rw [hc] at hscan
      simp at hscan
    | some c =>
      rw [hc] at hscan
      simp only [Option.bind_eq_bind, Option.some_bind] at hscan
      obtain ⟨hu, lv, lt, ev, et, h1, h2, h3, h4, h5, h6, h7⟩ :=
        scanSources_known_go rest c tt c tt none acc hscan
          (fun q hq => hall q (List.mem_cons_of_mem s hq))
      refine ⟨hu, lv, lt, ev, et, h1, h2, ?_, ?_, ?_⟩
      · rcases h5 with ⟨he1, he2⟩ | ⟨q, hq, hqt, hqc⟩
        · exact ⟨s, List.mem_cons_self s rest, by rw [htt, he2], by rw [hc, he1]⟩
        · exact ⟨q, List.mem_cons_of_mem s hq, hqt, hqc⟩
      · rcases h6 with ⟨he1, he2⟩ | ⟨q, hq, hqt, hqc⟩
        · exact ⟨s, List.mem_cons_self s rest, by rw [htt, he2], by rw [hc, he1]⟩
        · exact ⟨q, List.mem_cons_of_mem s hq, hqt, hqc⟩
      · intro q hq t hqt
        rcases List.mem_cons.mp hq with heq | hmem
        · subst heq
          rw [htt] at hqt
          cases hqt
          omega
        · exact h7 q hmem t hqt

/-- The per-vertex relaxation for an ordinary (non-unknown,
non-completion-queue) node with no unknown taint: `sel` is `latest`; the
node's critical pointer is `sel`'s stored critical pointer when
`sel.time > creation_time` and the node itself otherwise, and kinds without
their own trigger time get `max(creation_time, sel.time)` assigned. -/
theorem processVertex_ordinary (v : Nat) (entry entry' : EventEntry)
    (acc : ScanAcc) (lv lt ct : Nat)
    (hkind : entry.kind ≠ EventEntryKind.UnknownEvent)
    (hnotcq : entry.kind ≠ EventEntryKind.CompletionQueueEvent)
    (hunk : acc.unknown = none)
    (hlatest : acc.latest = some (lv, lt))
    (hct : entry.creationTime = some ct)
    (h : processVertex v entry acc = some entry') :
    entry'.kind = entry.kind ∧
    entry'.critical = (if ct < lt then some lv else some v) ∧
    (assignsTriggerTime entry.kind = true →
      entry'.triggerTime = some (max ct lt)) := by
  unfold processVertex at h
  simp only [hunk, hlatest, hct, hkind, hnotcq, ite_false, ite_true,
    if_neg, reduceIte, Option.bind_eq_bind, Option.some_bind,
    Option.pure_def] at h
  by_cases hcl : ct < lt
  all_goals simp only [hcl, ite_true, ite_false, if_pos, if_neg,
    Option.some_bind] at h
  · by_cases hassign : assignsTriggerTime entry.kind = true
    all_goals simp only [hassign, ite_true, ite_false, Bool.false_eq_true] at h
    · cases htr : entry.triggerTime with
      | some t0 => rw [htr] at h; simp at h
      | none =>
        rw [htr] at h
        simp only [Option.isSome_none, Bool.false_eq_true, ite_false,
          Option.some.injEq, reduceIte] at h
        subst h
        refine ⟨rfl, ?_, ?_⟩
        · simp [hcl]
        · intro _
          simp
          omega
    · cases htr : entry.triggerTime with
      | none => rw [htr] at h; simp at h
      | some t0 =>
        rw [htr] at h
        simp only [Option.isSome_some, ite_true, Option.some.injEq,
          reduceIte] at h
        subst h
        refine ⟨rfl, by simp [hcl], ?_⟩
        intro hcontra
        rw [hcontra] at hassign
        exact absurd rfl hassign
  · by_cases hassign : assignsTriggerTime entry.kind = true
    all_goals simp only [hassign, ite_true, ite_false, Bool.false_eq_true] at h
    · cases htr : entry.triggerTime with
      | some t0 => rw [htr] at h; simp at h
      | none =>
        rw [htr] at h
        simp only [Option.isSome_none, Bool.false_eq_true, ite_false,
          Option.some.injEq, reduceIte] at h
        subst h
        refine ⟨rfl, ?_, ?_⟩
        · simp [hcl]
        · intro _
          simp only
          congr 1
          omega
    · cases htr : entry.triggerTime with
      | none => rw [htr] at h; simp at h
      | some t0 =>
        rw [htr] at h
        simp only [Option.isSome_some, ite_true, Option.some.injEq,
          reduceIte] at h
        subst h
        refine ⟨rfl, by simp [hcl], ?_⟩
        intro hcontra
        rw [hcontra] at hassign
        exact absurd rfl hassign

/-- The per-vertex relaxation for a completion-queue node with no unknown
taint: `sel` is switched to `earliest`, and the node's trigger time becomes
`max(creation_time, earliest trigger time)`. -/
theorem processVertex_cq (v : Nat) (entry entry' : EventEntry)
    (acc : ScanAcc) (ev et ct : Nat)
    (hkind : entry.kind = EventEntryKind.CompletionQueueEvent)
    (hunk : acc.unknown = none)
    (hearliest : acc.earliest = some (ev, et))
    (hct : entry.creationTime = some ct)
    (h : processVertex v entry acc = some entry') :
    entry'.kind = entry.kind ∧
    entry'.critical = (if ct < et then some ev else some v) ∧
    entry'.triggerTime = some (max ct et) := by
  unfold processVertex at h
  simp only [hkind, hunk, hearliest, hct, ite_true, ite_false, reduceIte,
    reduceCtorEq, Option.bind_eq_bind, Option.some_bind, Option.pure_def,
    assignsTriggerTime] at h
  by_cases hcl : ct < et
  all_goals simp only [hcl, ite_true, ite_false, if_pos, if_neg,
    Option.some_bind, reduceIte] at h
  · cases htr : entry.triggerTime with
    | some t0 => rw [htr] at h; simp at h
    | none =>
      rw [htr] at h
      simp only [Option.isSome_none, Bool.false_eq_true, ite_false,
        Option.some.injEq, reduceIte] at h
      subst h
      refine ⟨by simp [hkind], by simp [hcl], ?_⟩
      simp
      omega
  · cases htr : entry.triggerTime with
    | some t0 => rw [htr] at h; simp at h
    | none =>
      rw [htr] at h
      simp only [Option.isSome_none, Bool.false_eq_true, ite_false,
        Option.some.injEq, reduceIte] at h
      subst h
      refine ⟨by simp [hkind], by simp [hcl], ?_⟩
      simp only
      congr 1
      omega

/-! ## Claim theorems -/

/-- The initial sweep state satisfies the processor/channel invariant. -/
theorem initSweep_invPostinc : SweepInvPostinc initSweep := by
  refine ⟨?_, ?_, ?_⟩ <;> simp [initSweep]

/-- The initial sweep state satisfies the memory invariant. -/
theorem initSweep_invPreinc : SweepInvPreinc initSweep := by
  refine ⟨?_, ?_, ?_⟩ <;> simp [initSweep]

/-- Results of `sort_and_stack` satisfy the processor/channel invariant. -/
theorem sort_and_stack_inv (points : List TimePoint) (st : SweepState)
    (pts : List TimePoint) (h : sort_and_stack points = some (st, pts)) :
    SweepInvPostinc st := by
  unfold sort_and_stack at h
  cases hfold : (sortPoints points).foldlM sweepStepPostinc initSweep with
  | none => rw [hfold] at h; cases h
  | some s1 =>
    rw [hfold] at h
    simp only [Option.map_some', Option.some.injEq, Prod.mk.injEq] at h
    obtain ⟨h1, _⟩ := h
    subst h1
    exact sweepPostinc_fold_inv _ _ _ hfold initSweep_invPostinc

/-- Results of `Mem::sort_time_range` satisfy the memory invariant. -/
theorem mem_sort_time_range_inv (insts : List (Nat × TimeRange))
    (st : SweepState) (pts : List TimePoint)
    (h : Mem.sort_time_range insts = some (st, pts)) : SweepInvPreinc st := by
  unfold Mem.sort_time_range at h
  cases hmap : insts.mapM fun e => Mem.addPoints e.1 e.2 with
  | none => rw [hmap] at h; cases h
  | some pls =>
    rw [hmap] at h
    simp only [Option.bind_eq_bind, Option.some_bind] at h
    cases hfold : (sortPoints pls.flatten).foldlM sweepStepPreinc initSweep with
    | none => rw [hfold] at h; cases h
    | some s1 =>
      rw [hfold] at h
      simp only [Option.map_some', Option.some.injEq, Prod.mk.injEq] at h
      obtain ⟨h1, _⟩ := h
      subst h1
      exact sweepPreinc_fold_inv _ _ _ hfold initSweep_invPreinc

/-- A level, once assigned, survives a processor/channel sweep step. -/
theorem sweepStepPostinc_mono (s s' : SweepState) (p : TimePoint)
    (h : sweepStepPostinc s p = some s') :
    ∀ e lvl, s.levels e = some lvl → s'.levels e = some lvl := by
  intro e lvl hl
  unfold sweepStepPostinc at h
  split at h
  · split at h
    · exact absurd h (by simp)
    · rename_i hnone
      split at h <;> simp only [Option.some.injEq] at h <;> subst h <;>
        · dsimp only
          simp only [setLevel]
          split
          · rename_i heq; subst heq; rw [hl] at hnone; cases hnone
          · exact hl
  · split at h
    · exact absurd h (by simp)
    · simp only [Option.some.injEq] at h; subst h; exact hl

/-- A level, once assigned, survives a memory sweep step. -/
theorem sweepStepPreinc_mono (s s' : SweepState) (p : TimePoint)
    (h : sweepStepPreinc s p = some s') :
    ∀ e lvl, s.levels e = some lvl → s'.levels e = some lvl := by
  intro e lvl hl
  unfold sweepStepPreinc at h
  split at h
  · split at h
    · exact absurd h (by simp)
    · rename_i hnone
      split at h <;> simp only [Option.some.injEq] at h <;> subst h <;>
        · dsimp only
          simp only [setLevel]
          split
          · rename_i heq; subst heq; rw [hl] at hnone; cases hnone
          · exact hl
  · split at h
    · exact absurd h (by simp)
    · simp only [Option.some.injEq] at h; subst h; exact hl

/-- A processor/channel sweep step assigns a level to a start point's
entry. -/
theorem sweepStepPostinc_assigns (s s' : SweepState) (p : TimePoint)
    (h : sweepStepPostinc s p = some s') (hfirst : p.first = true) :
    ∃ lvl, s'.levels p.entry = some lvl := by
  unfold sweepStepPostinc at h
  rw [if_pos hfirst] at h
  split at h
  · exact absurd h (by simp)
  · split at h
    · rename_i lvl rest hpop
      simp only [Option.some.injEq] at h
      subst h
      refine ⟨lvl, ?_⟩
      dsimp only
      simp [setLevel]
    · simp only [Option.some.injEq] at h
      subst h
      refine ⟨s.maxLevels, ?_⟩
      dsimp only
      simp [setLevel]

/-- A memory sweep step assigns a level to a start point's entry. -/
theorem sweepStepPreinc_assigns (s s' : SweepState) (p : TimePoint)
    (h : sweepStepPreinc s p = some s') (hfirst : p.first = true) :
    ∃ lvl, s'.levels p.entry = some lvl := by
  unfold sweepStepPreinc at h
  rw [if_pos hfirst] at h
  split at h
  · exact absurd h (by simp)
  · split at h
    · rename_i lvl rest hpop
      simp only [Option.some.injEq] at h
      subst h
      refine ⟨lvl, ?_⟩
      dsimp only
      simp [setLevel]
    · simp only [Option.some.injEq] at h
      subst h
      refine ⟨s.maxLevels + 1, ?_⟩
      dsimp only
      simp [setLevel]

/-- After a whole processor/channel sweep, every start point's entry has an
assigned level. -/
theorem sweepPostinc_fold_assigns (ps : List TimePoint) (s s' : SweepState)
    (h : ps.foldlM sweepStepPostinc s = some s') :
    (∀ e lvl, s.levels e = some lvl → s'.levels e = some lvl) ∧
    (∀ p ∈ ps, p.first = true → ∃ lvl, s'.levels p.entry = some lvl) := by
  induction ps generalizing s with
  | nil =>
    simp only [List.foldlM_nil, Option.pure_def, Option.some.injEq] at h
    subst h
    exact ⟨fun e lvl hl => hl, by simp⟩
  | cons p ps ih =>
    rw [List.foldlM_cons] at h
    cases h1 : sweepStepPostinc s p with
    | none => rw [h1] at h; cases h
    | some s1 =>
      rw [h1] at h
      obtain ⟨ihmono, ihassign⟩ := ih s1 h
      refine ⟨?_, ?_⟩
      · intro e lvl hl
        exact ihmono e lvl (sweepStepPostinc_mono s s1 p h1 e lvl hl)
      · intro q hq hqfirst
        rcases List.mem_cons.mp hq with heq | hmem
        · subst heq
          obtain ⟨lvl, hlvl⟩ := sweepStepPostinc_assigns s s1 q h1 hqfirst
          exact ⟨lvl, ihmono _ lvl hlvl⟩
        · exact ihassign q hmem hqfirst

/-- After a whole memory sweep, every start point's entry has an assigned
level. -/
theorem sweepPreinc_fold_assigns (ps : List TimePoint) (s s' : SweepState)
    (h : ps.foldlM sweepStepPreinc s = some s') :
    (∀ e lvl, s.levels e = some lvl → s'.levels e = some lvl) ∧
    (∀ p ∈ ps, p.first = true → ∃ lvl, s'.levels p.entry = some lvl) := by
  induction ps generalizing s with
  | nil =>
    simp only [List.foldlM_nil, Option.pure_def, Option.some.injEq] at h
    subst h
    exact ⟨fun e lvl hl => hl, by simp⟩
  | cons p ps ih =>
    rw [List.foldlM_cons] at h
    cases h1 : sweepStepPreinc s p with
    | none => rw [h1] at h; cases h
    | some s1 =>
      rw [h1] at h
      obtain ⟨ihmono, ihassign⟩ := ih s1 h
      refine ⟨?_, ?_⟩
      · intro e lvl hl
        exact ihmono e lvl (sweepStepPreinc_mono s s1 p h1 e lvl hl)
      · intro q hq hqfirst
        rcases List.mem_cons.mp hq with heq | hmem
        · subst heq
          obtain ⟨lvl, hlvl⟩ := sweepStepPreinc_assigns s s1 q h1 hqfirst
          exact ⟨lvl, ihmono _ lvl hlvl⟩
        · exact ihassign q hmem hqfirst

/-- Reading a bucket list after a single-bucket update. -/
theorem getD_set_bucket (acc : List (List TimePoint)) (lvl : Nat)
    (v : List TimePoint) (i : Nat) (hlt : lvl < acc.length) :
    (acc.set lvl v).getD i [] = if lvl = i then v else acc.getD i [] := by
  simp only [List.getD_eq_getElem?_getD, List.getElem?_set, hlt]
  split
  · rename_i heq; subst heq; simp [hlt]
  · rfl

/-- Stacking via `stackGo` succeeds when every point's level fits the bucket list and
appends each point to exactly the bucket of its level. -/
theorem stackGo_spec (levels : Nat → Option Nat) (ps : List TimePoint)
    (acc : List (List TimePoint))
    (hassigned : ∀ p ∈ ps, ∃ lvl, levels p.entry = some lvl ∧ lvl < acc.length) :
    ∃ res, stackGo levels ps acc = some res ∧ res.length = acc.length ∧
      ∀ i, res.getD i [] =
        acc.getD i [] ++ ps.filter fun p => levels p.entry == some i := by
  induction ps generalizing acc with
  | nil =>
    exact ⟨acc, rfl, rfl, by simp⟩
  | cons p ps ih =>
    obtain ⟨lvl, hlvl, hlt⟩ := hassigned p (List.mem_cons_self p ps)
    have hstep : stackGo levels (p :: ps) acc =
        stackGo levels ps (acc.set lvl (acc.getD lvl [] ++ [p])) := by
      conv_lhs => rw [stackGo]
      rw [hlvl]
      simp only [Option.bind_eq_bind, Option.some_bind]
      rw [if_pos hlt]
    have hside : ∀ q ∈ ps, ∃ l2, levels q.entry = some l2 ∧
        l2 < (acc.set lvl (acc.getD lvl [] ++ [p])).length := by
      intro q hq
      obtain ⟨l2, hl2, hl2lt⟩ := hassigned q (List.mem_cons_of_mem p hq)
      exact ⟨l2, hl2, by simpa using hl2lt⟩
    obtain ⟨res, hres, hlen, hchar⟩ :=
      ih (acc.set lvl (acc.getD lvl [] ++ [p])) hside
    refine ⟨res, by rw [hstep]; exact hres, by simpa using hlen, ?_⟩
    intro i
    rw [hchar i, getD_set_bucket acc lvl _ i hlt, List.filter_cons]
    by_cases hi : lvl = i
    · subst hi
      rw [if_pos rfl]
      have hpred : (levels p.entry == some lvl) = true := by
        rw [hlvl]; simp
      rw [hpred]
      simp
    · rw [if_neg hi]
      have hpred : (levels p.entry == some i) = false := by
        rw [hlvl, beq_eq_false_iff_ne]
        simpa using hi
      rw [hpred]
      simp

/-- The bucket property `Proc::stack_time_points`/`Mem::stack_time_points`
establish through `Container::stack`: `max_levels + 1` buckets, every
retained point in exactly the bucket of its entry's level. -/
def StackOK (st : SweepState) (pts : List TimePoint) : Prop :=
  ∃ buckets, Container.stack pts st.maxLevels st.levels = some buckets ∧
    buckets.length = st.maxLevels + 1 ∧
    (∀ i, buckets.getD i [] = pts.filter fun p => st.levels p.entry == some i) ∧
    ∀ p ∈ pts, ∀ i, (p ∈ buckets.getD i [] ↔ st.levels p.entry = some i)

/-- The embedded `Container::stack` satisfies the bucket property whenever every retained
point's entry carries a level below the bucket count. -/
theorem stack_ok_of (st : SweepState) (pts : List TimePoint)
    (hassigned : ∀ p ∈ pts,
      ∃ lvl, st.levels p.entry = some lvl ∧ lvl < st.maxLevels + 1) :
    StackOK st pts := by
  have hrep : ∀ i, (List.replicate (st.maxLevels + 1)
      ([] : List TimePoint)).getD i [] = [] := by
    intro i
    simp only [List.getD_eq_getElem?_getD, List.getElem?_replicate]
    split <;> rfl
  obtain ⟨res, hres, hlen, hchar⟩ := stackGo_spec st.levels pts
    (List.replicate (st.maxLevels + 1) []) (by simpa using hassigned)
  refine ⟨res, hres, by simpa using hlen, ?_, ?_⟩
  · intro i
    rw [hchar i, hrep i, List.nil_append]
  · intro p hp i
    rw [hchar i, hrep i, List.nil_append]
    constructor
    · intro hmem
      have := (List.mem_filter.mp hmem).2
      simpa using this
    · intro hlvl
      exact List.mem_filter.mpr ⟨hp, by simp [hlvl]⟩

/-- C10: after level assignment, `Container::stack` (as used by
`stack_time_points`) builds exactly `max_levels + 1` buckets and every
retained (first) time point lands in exactly one bucket, the one indexed by
its entry's assigned level — both for the processor/channel sweep and for
the memory sweep. -/
theorem C10_stacked_buckets (st : SweepState) (pts : List TimePoint) :
    (∀ points, sort_and_stack points = some (st, pts) → StackOK st pts) ∧
    (∀ insts, Mem.sort_time_range insts = some (st, pts) → StackOK st pts) := by
  constructor
  · intro points h
    unfold sort_and_stack at h
    cases hfold : (sortPoints points).foldlM sweepStepPostinc initSweep with
    | none => rw [hfold] at h; cases h
    | some s1 =>
      rw [hfold] at h
      simp only [Option.map_some', Option.some.injEq, Prod.mk.injEq] at h
      obtain ⟨h1, h2⟩ := h
      subst h1
      subst h2
      have hinv := sweepPostinc_fold_inv _ _ _ hfold initSweep_invPostinc
      have hass := (sweepPostinc_fold_assigns _ _ _ hfold).2
      apply stack_ok_of
      intro p hp
      have hp' := List.mem_filter.mp hp
      obtain ⟨lvl, hlvl⟩ := hass p hp'.1 (by simpa using hp'.2)
      have := hinv.1 _ _ hlvl
      exact ⟨lvl, hlvl, by omega⟩
  · intro insts h
    unfold Mem.sort_time_range at h
    cases hmap : insts.mapM fun e => Mem.addPoints e.1 e.2 with
    | none => rw [hmap] at h; cases h
    | some pls =>
      rw [hmap] at h
      simp only [Option.bind_eq_bind, Option.some_bind] at h
      cases hfold : (sortPoints pls.flatten).foldlM sweepStepPreinc initSweep with
      | none => rw [hfold] at h; cases h
      | some s1 =>
        rw [hfold] at h
        simp only [Option.map_some', Option.some.injEq, Prod.mk.injEq] at h
        obtain ⟨h1, h2⟩ := h
        subst h1
        subst h2
        have hinv := sweepPreinc_fold_inv _ _ _ hfold initSweep_invPreinc
        have hass := (sweepPreinc_fold_assigns _ _ _ hfold).2
        apply stack_ok_of
        intro p hp
        have hp' := List.mem_filter.mp hp
        obtain ⟨lvl, hlvl⟩ := hass p hp'.1 (by simpa using hp'.2)
        have := (hinv.1 _ _ hlvl).2
        exact ⟨lvl, hlvl, by omega⟩

/-- The two time points of a single task on `[100, 500]`. -/
def c10points : List TimePoint :=
  [⟨100, timestampMAX - 500, 1, true⟩, ⟨500, 0, 1, false⟩]

/-- The sweep state after laying out the single task. -/
def c10st : SweepState := ⟨setLevel (fun _ => none) 1 0, [0], 1⟩

/-- The retained (first) time point of the single task. -/
def c10pts : List TimePoint := [⟨100, timestampMAX - 500, 1, true⟩]

/-- C10 witness: the processor clause applied to the concrete single-task
point list. -/
theorem C10_stacked_buckets_witness :
    sort_and_stack c10points = some (c10st, c10pts) ∧ StackOK c10st c10pts :=
  ⟨rfl, (C10_stacked_buckets c10st c10pts).1 c10points rfl⟩

/-- Concrete instance for the C2 counterexample: a memory with exactly one
instance, live on `[1, 2]`. -/
def ceInst : Nat × TimeRange := (0, ⟨none, some 1, some 1, some 1, some 2⟩)

/-- C2 counterexample: on a memory with a single instance,
`Mem::sort_time_range` assigns level 1 (the level allocator pre-increments
`max_live_insts`), and the container's `max_levels` is also 1, so the level
is not strictly below `max_levels` and `max_levels` is not one beyond the
highest assigned level. -/
theorem C2_counterexample :
    ((Mem.sort_time_range [ceInst]).map fun r => (r.1.levels 0, r.1.maxLevels)) =
      some (some 1, 1) ∧ ¬ (1 < 1) := ⟨by decide, by decide⟩

/-- C2 (amended): after `sort_time_range`, on processors and channels every
assigned level satisfies `0 ≤ level < max_levels` and, once any level
exists, `max_levels` is one beyond the highest assigned level; on memories
every assigned level satisfies `1 ≤ level ≤ max_levels` and `max_levels`
itself is the highest assigned level. -/
theorem C2_levels_in_range (st : SweepState) (pts : List TimePoint) :
    (∀ points, sort_and_stack points = some (st, pts) →
      (∀ e lvl, st.levels e = some lvl → lvl < st.maxLevels) ∧
      (0 < st.maxLevels → ∃ e, st.levels e = some (st.maxLevels - 1))) ∧
    (∀ entries, Proc.sort_time_range entries = some (st, pts) →
      (∀ e lvl, st.levels e = some lvl → lvl < st.maxLevels) ∧
      (0 < st.maxLevels → ∃ e, st.levels e = some (st.maxLevels - 1))) ∧
    (∀ insts, Mem.sort_time_range insts = some (st, pts) →
      (∀ e lvl, st.levels e = some lvl → 1 ≤ lvl ∧ lvl ≤ st.maxLevels) ∧
      (0 < st.maxLevels → ∃ e, st.levels e = some st.maxLevels)) := by
  refine ⟨?_, ?_, ?_⟩
  · intro points h
    obtain ⟨h1, _, h3⟩ := sort_and_stack_inv points st pts h
    exact ⟨h1, h3⟩
  · intro entries h
    unfold Proc.sort_time_range at h
    cases hmap : entries.mapM fun e => Proc.addPoints e.1 e.2 with
    | none => rw [hmap] at h; cases h
    | some pls =>
      rw [hmap] at h
      simp only [Option.bind_eq_bind, Option.some_bind] at h
      obtain ⟨h1, _, h3⟩ := sort_and_stack_inv pls.flatten st pts h
      exact ⟨h1, h3⟩
  · intro insts h
    obtain ⟨h1, _, h3⟩ := mem_sort_time_range_inv insts st pts h
    exact ⟨h1, h3⟩

/-- The sweep state produced by `Mem::sort_time_range` on the single
instance `ceInst`. -/
def ceMemResult : SweepState := ⟨setLevel (fun _ => none) 0 1, [1], 1⟩

/-- C2 witness: the memory clause of the amended theorem applied to the
concrete single-instance memory; the assigned level 1 indeed satisfies
`1 ≤ 1 ≤ max_levels = 1`. -/
theorem C2_levels_in_range_witness :
    Mem.sort_time_range [ceInst] =
      some (ceMemResult, [⟨1, timestampMAX - 2, 0, true⟩]) ∧
    (1 ≤ 1 ∧ 1 ≤ 1) := by
  refine ⟨rfl, ?_⟩
  exact ((C2_levels_in_range ceMemResult
    [⟨1, timestampMAX - 2, 0, true⟩]).2.2 [ceInst] rfl).1 0 1 rfl

/-- The three intervals of the C4 scenario. -/
def c4tr1 : TimeRange := ⟨none, none, none, some 100, some 500⟩

/-- Second C4 interval. -/
def c4tr2 : TimeRange := ⟨none, none, none, some 200, some 300⟩

/-- Third C4 interval. -/
def c4tr3 : TimeRange := ⟨none, none, none, some 400, some 600⟩

/-- C4: the sweep pops the smallest free level on a start point (the heap
pop returns a minimum of the free multiset), and on the concrete scenario
`[100,500]`, `[200,300]`, `[400,600]` the entries get levels 0, 1 and 1:
after the shorter task finishes (the first three sorted points), level 1 is
exactly what sits in the free heap, and the third task reuses it, leaving
`max_levels = 2`. -/
theorem C4_level_sweep (l : List Nat) (m : Nat) (rest : List Nat) :
    (popMin l = some (m, rest) → m ∈ l ∧ ∀ x ∈ l, m ≤ x) ∧
    ((Proc.sort_time_range [(1, c4tr1), (2, c4tr2), (3, c4tr3)]).map fun r =>
        (r.1.levels 1, r.1.levels 2, r.1.levels 3, r.1.maxLevels)) =
      some (some 0, some 1, some 1, 2) ∧
    (([(1, c4tr1), (2, c4tr2), (3, c4tr3)].mapM fun e =>
        Proc.addPoints e.1 e.2).map fun pl =>
        (((sortPoints pl.flatten).take 3).foldlM sweepStepPostinc initSweep).map
          (·.free)) =
      some (some [1]) := by
  refine ⟨?_, by decide, by decide⟩
  intro h
  obtain ⟨hmem, _, hmin⟩ := popMin_spec l m rest h
  exact ⟨hmem, hmin⟩

/-- C4 witness: popping the concrete heap `[3, 1, 2]` returns its minimum 1. -/
theorem C4_level_sweep_witness :
    (1 : Nat) ∈ [3, 1, 2] ∧ ∀ x ∈ [(3 : Nat), 1, 2], 1 ≤ x :=
  (C4_level_sweep [3, 1, 2] 1 [3, 2]).1 (by decide)

/-- Concrete range for the C3 counterexample: a retained entry whose `spawn`
is populated and far outside the trim window. -/
def ceRange : TimeRange := ⟨some 100, some 45, some 50, some 50, some 55⟩

/-- C3 counterexample: `trim_time_range(40, 60)` keeps `ceRange` but leaves
its populated `spawn` field at 100, which does not lie in `[0, 60 - 40]`;
so not all five fields are clipped and a retained entry can keep a populated
time field outside `[0, b - a]`. -/
theorem C3_counterexample :
    (ceRange.trim_time_range 40 60).1 = false ∧
    (ceRange.trim_time_range 40 60).2.spawn = some 100 ∧
    ¬ (100 ≤ 60 - 40) := by decide

/-- C3 (amended): `trim_time_range(lo, hi)` subtracts `lo` and clips the four
fields `create`, `ready`, `start`, `stop` to `[0, hi - lo]`, leaves `spawn`
unchanged, and returns the drop-me signal exactly when the `[start, stop]`
interval lies fully outside `[lo, hi]`; consequently every populated field
other than `spawn` of every retained entry lies in `[0, hi - lo]`. -/
theorem C3_trim_time_range (lo hi : Nat) :
    (∀ tr : TimeRange, ∀ s t, tr.start = some s → tr.stop = some t →
      ((tr.trim_time_range lo hi).1 = true ↔ t < lo ∨ hi < s)) ∧
    (∀ l : List TimeRange, ∀ tr' ∈ trimEntries l lo hi,
      (∃ tr ∈ l, tr'.spawn = tr.spawn) ∧
      (∀ v, tr'.create = some v → v ≤ hi - lo) ∧
      (∀ v, tr'.ready = some v → v ≤ hi - lo) ∧
      (∀ v, tr'.start = some v → v ≤ hi - lo) ∧
      (∀ v, tr'.stop = some v → v ≤ hi - lo)) := by
  constructor
  · intro tr s t hs ht
    have hfst : (tr.trim_time_range lo hi).1 =
        ((tr.stop.any fun x => x < lo) || (tr.start.any fun x => x > hi)) := by
      unfold TimeRange.trim_time_range
      split <;> simp_all
    rw [hfst, hs, ht]
    simp only [Option.any_some, Bool.or_eq_true, decide_eq_true_eq]
  · intro l tr' hmem
    unfold trimEntries at hmem
    simp only [List.mem_filterMap, List.mem_map] at hmem
    obtain ⟨r, ⟨tr, htr, hr⟩, hkeep⟩ := hmem
    obtain ⟨b, tr2⟩ := r
    split at hkeep
    · exact absurd hkeep (by simp)
    · rename_i hfst
      simp only [Bool.not_eq_true] at hfst
      simp only [Option.some.injEq] at hkeep
      subst hfst
      subst hkeep
      obtain ⟨hsp, hc, hrd, hst, hstp⟩ :=
        TimeRange.trim_eq_of_kept tr tr2 lo hi hr
      refine ⟨⟨tr, htr, hsp⟩, ?_, ?_, ?_, ?_⟩ <;>
        · intro v hv
          first
            | (rw [hc] at hv)
            | (rw [hrd] at hv)
            | (rw [hst] at hv)
            | (rw [hstp] at hv)
          cases h0 : tr.create <;> cases h1 : tr.ready <;>
            cases h2 : tr.start <;> cases h3 : tr.stop <;>
            simp_all <;> (subst hv; exact TimeRange.clip_le lo hi _)

/-- C3 witness: the amended theorem evaluated at the window `[40, 60]`, a
concrete range `[50, 55]` (not dropped) and the singleton entry list. -/
theorem C3_trim_time_range_witness :
    ((ceRange.trim_time_range 40 60).1 = true ↔ 55 < 40 ∨ 60 < 50) ∧
    (∀ v, (trimEntries [ceRange] 40 60).head?.bind (·.create) = some v →
      v ≤ 60 - 40) := by
  refine ⟨(C3_trim_time_range 40 60).1 ceRange 50 55 rfl rfl, ?_⟩
  intro v hv
  have hmem : (⟨some 100, some 5, some 10, some 10, some 15⟩ : TimeRange) ∈
      trimEntries [ceRange] 40 60 := by decide
  have := ((C3_trim_time_range 40 60).2 [ceRange] _ hmem).2.1
  revert hv
  have hhead : (trimEntries [ceRange] 40 60).head? =
      some ⟨some 100, some 5, some 10, some 10, some 15⟩ := by decide
  rw [hhead]
  intro hv
  exact this v hv

/-- Concrete event wait for the C9 counterexample: an event-wait whose
`ready` equals its `end` even though no callee is set. -/
def ceWait : WaitInterval := ⟨0, 5, 5, none, some 7, none⟩

/-- C9 counterexample: `WaitInterval::from_event(0, 5, 5, ...)` constructs a
wait interval with `ready == end` and `callee` unset, so "`ready == end` iff
`callee` is set" fails. -/
theorem C9_counterexample :
    WaitInterval.from_event 0 5 5 7 none = some ceWait ∧
    ¬ (ceWait.ready = ceWait.«end» ↔ ceWait.callee.isSome) := by
  exact ⟨by decide, by decide⟩

/-- The linear chain `a → b → c` of the C1 scenario: `a` (vertex 0) a
TaskEvent created at 0 triggering at 10, `b` (vertex 1) a Merge created at
5, `c` (vertex 2) a Trigger created at 20. -/
def chainNodes : List EventEntry :=
  [⟨.TaskEvent, some 100, some 0, some 10, none⟩,
   ⟨.MergeEvent, some 101, some 5, none, none⟩,
   ⟨.TriggerEvent, some 102, some 20, none, none⟩]

/-- Edges of the chain: `a → b`, `b → c`. -/
def chainEdges : List (Nat × Nat) := [(0, 1), (1, 2)]

/-- C1 counterexample: on the chain, the relaxation yields
`critical(c) = c` (vertex 2), not `critical(c) = a` as the claim's example
asserts — `c`'s creation time 20 is not less than its predecessor's trigger
time 10, so `c` is its own critical predecessor (consistent with the claim's
own general rule).  `trigger_time(b) = 10` and `trigger_time(c) = 20` do
hold. -/
theorem C1_counterexample :
    ((compute_critical_paths chainNodes chainEdges [0, 1, 2]).map fun ns =>
        ns.map fun n => (n.critical, n.triggerTime)) =
      some [(some 0, some 10), (some 0, some 10), (some 2, some 20)] ∧
    ¬ ((some 2 : Option Nat) = some 0) := ⟨by decide, by decide⟩

/-- C1 (amended): for a node whose incoming sources all have known trigger
times, the scan selects `sel = latest`; `critical` becomes `sel`'s critical
pointer when `sel.time > creation_time` and the node itself otherwise, and
the listed kinds get `trigger_time = max(creation_time, sel.time)`.  On the
chain `a → b → c` this gives `critical(a) = a`, `critical(b) = a` with
`trigger_time(b) = 10`, and `critical(c) = c` (not `a`) with
`trigger_time(c) = 20`. -/
theorem C1_critical_path_relaxation (v : Nat) (entry entry' : EventEntry)
    (srcs : List EventEntry) (acc : ScanAcc) (ct : Nat)
    (hscan : scanSources srcs ⟨none, none, none⟩ = some acc)
    (hall : ∀ s ∈ srcs, s.triggerTime.isSome)
    (hne : srcs ≠ [])
    (hkind : entry.kind ≠ EventEntryKind.UnknownEvent)
    (hnotcq : entry.kind ≠ EventEntryKind.CompletionQueueEvent)
    (hct : entry.creationTime = some ct)
    (hproc : processVertex v entry acc = some entry') :
    (∃ lv lt, acc.latest = some (lv, lt) ∧
      (∃ s ∈ srcs, s.triggerTime = some lt ∧ s.critical = some lv) ∧
      (∀ s ∈ srcs, ∀ t, s.triggerTime = some t → t ≤ lt) ∧
      entry'.critical = (if ct < lt then some lv else some v) ∧
      (assignsTriggerTime entry.kind = true →
        entry'.triggerTime = some (max ct lt))) ∧
    ((compute_critical_paths chainNodes chainEdges [0, 1, 2]).map fun ns =>
        ns.map fun n => (n.critical, n.triggerTime)) =
      some [(some 0, some 10), (some 0, some 10), (some 2, some 20)] := by
  refine ⟨?_, by decide⟩
  obtain ⟨hu, lv, lt, ev, et, hl, he, hatt, hatte, hbound⟩ :=
    scanSources_known srcs acc hscan hall hne
  obtain ⟨hk, hcrit, htrig⟩ :=
    processVertex_ordinary v entry entry' acc lv lt ct hkind hnotcq hu hl
      hct hproc
  exact ⟨lv, lt, hl, hatt, fun s hs t ht => (hbound s hs t ht).1, hcrit, htrig⟩

/-- The already-processed source of the C1 witness (`a` with its critical
pointer set to itself). -/
def c1src : EventEntry := ⟨.TaskEvent, some 100, some 0, some 10, some 0⟩

/-- Scan accumulator after scanning `[c1src]`. -/
def c1acc : ScanAcc := ⟨some (0, 10), some (0, 10), none⟩

/-- Node `b` of the chain before relaxation. -/
def c1entry : EventEntry := ⟨.MergeEvent, some 101, some 5, none, none⟩

/-- Node `b` of the chain after relaxation. -/
def c1entry' : EventEntry := ⟨.MergeEvent, some 101, some 5, some 10, some 0⟩

/-- C1 witness: the general rule applied to node `b` of the chain with its
single source `a`. -/
theorem C1_critical_path_relaxation_witness :
    (∃ lv lt, c1acc.latest = some (lv, lt) ∧
      (∃ s ∈ [c1src], s.triggerTime = some lt ∧ s.critical = some lv) ∧
      (∀ s ∈ [c1src], ∀ t, s.triggerTime = some t → t ≤ lt) ∧
      c1entry'.critical = (if 5 < lt then some lv else some 1) ∧
      (assignsTriggerTime c1entry.kind = true →
        c1entry'.triggerTime = some (max 5 lt))) ∧
    ((compute_critical_paths chainNodes chainEdges [0, 1, 2]).map fun ns =>
        ns.map fun n => (n.critical, n.triggerTime)) =
      some [(some 0, some 10), (some 0, some 10), (some 2, some 20)] :=
  C1_critical_path_relaxation 1 c1entry c1entry' [c1src] c1acc 5
    (by decide) (by decide) (by decide) (by decide) (by decide) (by decide)
    (by decide)

/-- The C7 scenario as a graph: three task events with trigger times 40, 12
and 30, all feeding a CompletionQueueEvent created at 5. -/
def cqNodes : List EventEntry :=
  [⟨.TaskEvent, some 100, some 0, some 40, none⟩,
   ⟨.TaskEvent, some 101, some 0, some 12, none⟩,
   ⟨.TaskEvent, some 102, some 0, some 30, none⟩,
   ⟨.CompletionQueueEvent, some 103, some 5, none, none⟩]

/-- Edges of the completion-queue scenario. -/
def cqEdges : List (Nat × Nat) := [(0, 3), (1, 3), (2, 3)]

/-- C7: a CompletionQueueEvent node without unknown taint selects the
*earliest* trigger time among its sources: the scan's `earliest` component
is the minimum of the incoming trigger times paired with the critical
pointer of a source attaining it, and the node's critical pointer and
trigger time are computed from it.  On the concrete graph with incoming
trigger times `{40, 12, 30}` the completion queue takes 12 and points at
the earliest source (vertex 1). -/
theorem C7_completion_queue_earliest (v : Nat) (entry entry' : EventEntry)
    (srcs : List EventEntry) (acc : ScanAcc) (ct : Nat)
    (hscan : scanSources srcs ⟨none, none, none⟩ = some acc)
    (hall : ∀ s ∈ srcs, s.triggerTime.isSome)
    (hne : srcs ≠ [])
    (hkind : entry.kind = EventEntryKind.CompletionQueueEvent)
    (hct : entry.creationTime = some ct)
    (hproc : processVertex v entry acc = some entry') :
    (∃ ev et, acc.earliest = some (ev, et) ∧
      (∃ s ∈ srcs, s.triggerTime = some et ∧ s.critical = some ev) ∧
      (∀ s ∈ srcs, ∀ t, s.triggerTime = some t → et ≤ t) ∧
      entry'.critical = (if ct < et then some ev else some v) ∧
      entry'.triggerTime = some (max ct et)) ∧
    ((compute_critical_paths cqNodes cqEdges [0, 1, 2, 3]).map fun ns =>
        ns.map fun n => (n.critical, n.triggerTime)) =
      some [(some 0, some 40), (some 1, some 12), (some 2, some 30),
            (some 1, some 12)] := by
  refine ⟨?_, by decide⟩
  obtain ⟨hu, lv, lt, ev, et, hl, he, hatt, hatte, hbound⟩ :=
    scanSources_known srcs acc hscan hall hne
  obtain ⟨hk, hcrit, htrig⟩ :=
    processVertex_cq v entry entry' acc ev et ct hkind hu he hct hproc
  exact ⟨ev, et, he, hatte, fun s hs t ht => (hbound s hs t ht).2, hcrit, htrig⟩

/-- The three already-processed sources of the C7 witness. -/
def c7srcs : List EventEntry :=
  [⟨.TaskEvent, some 100, some 0, some 40, some 0⟩,
   ⟨.TaskEvent, some 101, some 0, some 12, some 1⟩,
   ⟨.TaskEvent, some 102, some 0, some 30, some 2⟩]

/-- Scan accumulator after scanning `c7srcs`. -/
def c7acc : ScanAcc := ⟨some (0, 40), some (1, 12), none⟩

/-- The completion-queue node before relaxation. -/
def c7entry : EventEntry := ⟨.CompletionQueueEvent, some 103, some 5, none, none⟩

/-- The completion-queue node after relaxation. -/
def c7entry' : EventEntry :=
  ⟨.CompletionQueueEvent, some 103, some 5, some 12, some 1⟩

/-- C7 witness: the theorem applied to the concrete completion-queue node
with incoming trigger times 40, 12, 30. -/
theorem C7_completion_queue_earliest_witness :
    (∃ ev et, c7acc.earliest = some (ev, et) ∧
      (∃ s ∈ c7srcs, s.triggerTime = some et ∧ s.critical = some ev) ∧
      (∀ s ∈ c7srcs, ∀ t, s.triggerTime = some t → et ≤ t) ∧
      c7entry'.critical = (if 5 < et then some ev else some 3) ∧
      c7entry'.triggerTime = some (max 5 et)) ∧
    ((compute_critical_paths cqNodes cqEdges [0, 1, 2, 3]).map fun ns =>
        ns.map fun n => (n.critical, n.triggerTime)) =
      some [(some 0, some 40), (some 1, some 12), (some 2, some 30),
            (some 1, some 12)] :=
  C7_completion_queue_earliest 3 c7entry c7entry' c7srcs c7acc 5
    (by decide) (by decide) (by decide) (by decide) (by decide) (by decide)

/-- A direct `CopyInstInfo` row from memory 10 to memory 20. -/
def ceDirectRow : CopyInstInfo := ⟨some 10, some 20, 0, 0, none, none, 0, false⟩

/-- An indirection marker whose `src` side is populated (a gather). -/
def ceMarker : CopyInstInfo := ⟨some 7, none, 0, 0, none, none, 0, true⟩

/-- A gather data row: `src` is indirect (unset), only `dst` is populated. -/
def ceGatherRow : CopyInstInfo := ⟨none, some 20, 0, 0, none, none, 0, false⟩

/-- C5: the code groups with `linear_group_by(|i, _| i.indirect)`, which
breaks a group after every non-marker row instead of splitting at the
markers.  Two consecutive direct rows with the same `(src, dst)` therefore
produce two sub-copies where the spec (and the function's own comment,
"split on these indirects first, and then group by src/dst memories")
requires one; and a gather whose marker is followed by two data rows panics
in the `unreachable!` arm, because the second data row (with `src` unset)
is treated as the start of a new direct run.  The spec-grouped variant
produces the documented results. -/
theorem C5_split_grouping_bug :
    ((split_by_channel [ceDirectRow, ceDirectRow] 0 none).map fun st =>
        st.result.map fun sc => (sc.chan_id, sc.copy_inst_infos)) =
      some [(ChanID.Copy 10 20, [ceDirectRow]),
            (ChanID.Copy 10 20, [ceDirectRow])] ∧
    ((split_by_channel_specGrouping [ceDirectRow, ceDirectRow] 0 none).map
        fun st => st.result.map fun sc => (sc.chan_id, sc.copy_inst_infos)) =
      some [(ChanID.Copy 10 20, [ceDirectRow, ceDirectRow])] ∧
    (split_by_channel [ceMarker, ceGatherRow, ceGatherRow] 0 none).isSome =
      false ∧
    ((split_by_channel_specGrouping [ceMarker, ceGatherRow, ceGatherRow] 0
        none).map fun st =>
        st.result.map fun sc => (sc.chan_id, sc.copy_inst_infos)) =
      some [(ChanID.Gather 20, [ceMarker, ceGatherRow, ceGatherRow])] := by
  refine ⟨by decide, by decide, by decide, by decide⟩

/-- The creator tracking of `split_by_channel`: either nothing has been
emitted yet and the event node's `creator` is untouched, or it names the
most recently emitted sub-copy. -/
def CreatorInv (c0 : Option Nat) (st : SplitState) : Prop :=
  (st.result = [] ∧ st.creator = c0) ∨
  (st.result ≠ [] ∧ st.creator = st.result.getLast?.map (·.uid))

/-- Each emission appends one sub-copy and redirects `creator` to it. -/
theorem emitMemGroup_post (ind : Option CopyInstInfo)
    (isrc idst : Bool) (ck : CopyKind) (st st' : SplitState)
    (grp : List CopyInstInfo)
    (h : emitMemGroup ind isrc idst ck st grp = some st') :
    ∃ sub : SubCopy, st'.result = st.result ++ [sub] ∧
      st'.creator = some sub.uid := by
  unfold emitMemGroup at h
  cases hinfo : grp.head? with
  | none => rw [hinfo] at h; cases h
  | some info =>
    rw [hinfo] at h
    simp only [Option.bind_eq_bind, Option.some_bind] at h
    cases hch : chanFor isrc idst info.src info.dst with
    | none => rw [hch] at h; cases h
    | some ch =>
      rw [hch] at h
      simp only [Option.some_bind, Option.pure_def, Option.some.injEq] at h
      subst h
      exact ⟨_, rfl, rfl⟩

/-- The second disjunct of `CreatorInv` holds right after any emission. -/
theorem creatorInv_of_emit (c0 : Option Nat) (st st' : SplitState)
    (sub : SubCopy) (hres : st'.result = st.result ++ [sub])
    (hcre : st'.creator = some sub.uid) : CreatorInv c0 st' := by
  refine Or.inr ⟨by simp [hres], ?_⟩
  rw [hcre, hres, List.getLast?_concat]
  rfl

/-- The inner emission loop preserves `CreatorInv`. -/
theorem foldlM_emit_creatorInv (c0 : Option Nat) (ind : Option CopyInstInfo)
    (isrc idst : Bool) (ck : CopyKind) (groups : List (List CopyInstInfo))
    (st st' : SplitState)
    (h : groups.foldlM (emitMemGroup ind isrc idst ck) st = some st')
    (hinv : CreatorInv c0 st) : CreatorInv c0 st' := by
  induction groups generalizing st with
  | nil =>
    simp only [List.foldlM_nil, Option.pure_def, Option.some.injEq] at h
    subst h; exact hinv
  | cons g gs ih =>
    rw [List.foldlM_cons] at h
    cases h1 : emitMemGroup ind isrc idst ck st g with
    | none => rw [h1] at h; cases h
    | some s1 =>
      rw [h1] at h
      obtain ⟨sub, hres, hcre⟩ := emitMemGroup_post ind isrc idst ck st s1 g h1
      exact ih s1 h (creatorInv_of_emit c0 st s1 sub hres hcre)

/-- One outer indirect-group iteration preserves `CreatorInv`. -/
theorem splitIndirectGroup_creatorInv (c0 : Option Nat)
    (st st' : SplitState) (grp : List CopyInstInfo)
    (h : splitIndirectGroup st grp = some st') (hinv : CreatorInv c0 st) :
    CreatorInv c0 st' := by
  unfold splitIndirectGroup at h
  exact foldlM_emit_creatorInv c0 _ _ _ _ _ st st' h hinv

/-- The outer indirect-group loop preserves `CreatorInv`. -/
theorem foldlM_splitIndirect_creatorInv (c0 : Option Nat)
    (gs : List (List CopyInstInfo)) (st st' : SplitState)
    (h : gs.foldlM splitIndirectGroup st = some st')
    (hinv : CreatorInv c0 st) : CreatorInv c0 st' := by
  induction gs generalizing st with
  | nil =>
    simp only [List.foldlM_nil, Option.pure_def, Option.some.injEq] at h
    subst h; exact hinv
  | cons g gs ih =>
    rw [List.foldlM_cons] at h
    cases h1 : splitIndirectGroup st g with
    | none => rw [h1] at h; cases h
    | some s1 =>
      rw [h1] at h
      exact ih s1 h (splitIndirectGroup_creatorInv c0 st s1 g h1 hinv)

/-- C8: whenever `split_by_channel` succeeds and emits at least one
sub-copy, the event node's `creator` ends up naming the *last* emitted
sub-copy. -/
theorem C8_creator_is_last_subcopy (infos : List CopyInstInfo) (u0 : Nat)
    (creator0 : Option Nat) (st : SplitState)
    (h : split_by_channel infos u0 creator0 = some st)
    (hne : st.result ≠ []) :
    st.creator = st.result.getLast?.map (·.uid) := by
  unfold split_by_channel at h
  have hinv := foldlM_splitIndirect_creatorInv creator0 _ _ st h
    (Or.inl ⟨rfl, rfl⟩)
  rcases hinv with ⟨hres, _⟩ | ⟨h1, h2⟩
  · exact absurd hres hne
  · exact h2

/-- The result of splitting the single direct row. -/
def c8st : SplitState :=
  ⟨1, some 1, [⟨1, CopyKind.Copy, ChanID.Copy 10 20, [ceDirectRow]⟩]⟩

/-- C8 witness: on the one-row copy the creator ends at the (only, hence
last) emitted sub-copy, uid 1. -/
theorem C8_creator_is_last_subcopy_witness :
    c8st.creator = c8st.result.getLast?.map (·.uid) :=
  C8_creator_is_last_subcopy [ceDirectRow] 0 none c8st (by decide) (by decide)

/-- An event-merger record: result event 3, recorded by fevent 5 at time 50,
with the single precondition event 7 (all ids non-barrier). -/
def ceMergerRec : EventMergerInfo := ⟨3, 5, 50, some 7, none, none, none⟩

/-- The ingest state before any event records. -/
def emptyDag : DagState := ⟨⟨0, []⟩, ⟨[], [], []⟩⟩

/-- C6: processing the same `EventMergerInfo` record twice duplicates the
precondition edge — the node itself is deduplicated
(`record_event_node(..., deduplicate = true)`), but the merger arm inserts
its edges with petgraph's `add_edge`, which appends unconditionally; the
idempotent `update_edge` (used by the source for barrier arrivals and
remote triggers, and prescribed by the spec here) would have left the edge
set unchanged. -/
theorem C6_merger_edge_duplicated :
    ((processEventMergerInfo emptyDag ceMergerRec).map fun st =>
        st.graph.edges) = some [(1, 0)] ∧
    ((processEventMergerInfo emptyDag ceMergerRec >>= fun st =>
        processEventMergerInfo st ceMergerRec).map fun st =>
        st.graph.edges) = some [(1, 0), (1, 0)] ∧
    update_edge [(1, 0)] 1 0 = [(1, 0)] := by
  have h1 : processEventMergerInfo emptyDag ceMergerRec =
      some ⟨⟨1, [(5, 1)]⟩,
        ⟨[EventEntry.new .MergeEvent (some 1) (some 50) none,
          EventEntry.new .UnknownEvent none none none],
         [(1, 0)], [(3, 0), (7, 1)]⟩⟩ := by
    simp [processEventMergerInfo, record_event_node, addMergerPre, emptyDag,
      ceMergerRec, ProfUIDAllocator.create_reference, assocFind, EventEntry.new]
    rw [find_event_node]
    simp [assocFind, EventID.is_barrier, EventID.generation, EventEntry.new]
  refine ⟨by rw [h1]; rfl, ?_, by decide⟩
  rw [h1]
  simp only [Option.bind_eq_bind, Option.some_bind]
  simp [processEventMergerInfo, record_event_node, addMergerPre,
    ceMergerRec, ProfUIDAllocator.create_reference, assocFind, EventEntry.new]
  rw [find_event_node]
  simp [assocFind, EventID.is_barrier, EventID.generation, EventEntry.new]

/-- C9 (amended): every `WaitInterval` built by either constructor satisfies
`start ≤ ready ≤ end`, and if `callee` is set then `ready == end`; the
converse implication does not hold. -/
theorem C9_wait_interval_invariant (w : WaitInterval)
    (h : (∃ s r e ev bt, WaitInterval.from_event s r e ev bt = some w) ∨
         (∃ s e c, WaitInterval.from_caller s e c = some w)) :
    w.start ≤ w.ready ∧ w.ready ≤ w.«end» ∧
    (w.callee.isSome → w.ready = w.«end») := by
  rcases h with ⟨s, r, e, ev, bt, hmk⟩ | ⟨s, e, c, hmk⟩
  · unfold WaitInterval.from_event at hmk
    split at hmk
    · rename_i hle
      cases hmk
      exact ⟨hle.1, hle.2, by simp⟩
    · cases hmk
  · unfold WaitInterval.from_caller at hmk
    split at hmk
    · rename_i hle
      cases hmk
      exact ⟨hle, le_refl _, fun _ => rfl⟩
    · cases hmk

/-- C9 witness: the invariant applied to the concrete caller-wait
`from_caller 1 3 9`. -/
theorem C9_wait_interval_invariant_witness :
    (1 : Nat) ≤ 3 ∧ (3 : Nat) ≤ 3 ∧
    ((Option.isSome (some 9 : Option Nat)) → (3 : Nat) = 3) :=
  C9_wait_interval_invariant ⟨1, 3, 3, some 9, none, none⟩
    (Or.inr ⟨1, 3, 9, by decide⟩)

end Legion
